import Mathlib

/-
Shallow embedding of the page-replacement programs of this repository:
three C programs sharing a common shape (a fixed pool of NUM_FRAMES = 4
frames and a single mutating entry point loadPage), one per policy:
  namespace LFU   — src/unnamed/part_000 (doubly-linked list, frequency counters)
  namespace LRU   — src/unnamed/part_001 (doubly-linked list, recency order)
  namespace Clock — src/LRU-CLOCK.c      (fixed array, reference bits, clock hand)
The doubly-linked lists are embedded as Lean lists, head first (the C head
pointer is the list head, the C tail pointer is the last element); removal
of a node is embedded as List.erase of its value, which removes the first
structurally equal element — identical to pointer removal whenever the
resident page ids are pairwise distinct, which is an invariant proved below.
C ints are embedded as Int.
-/

namespace PageCache

namespace LFU

/-- NUM_FRAMES from src/unnamed/part_000, line 19. -/
abbrev NUM_FRAMES : Nat := 4

/-- Frame from src/unnamed/part_000: page number (-1 if empty), occupancy
flag, and the LFU frequency counter. The prev/next pointers are represented
by the position of the frame inside the list. -/
structure Frame where
  page : Int
  valid : Bool
  frequency : Int
deriving DecidableEq, Repr

/-- FrameList from src/unnamed/part_000: the occupied-frame counter plus the
doubly-linked list, head (most recently inserted) first. -/
structure FrameList where
  numFrames : Int
  frames : List Frame
deriving DecidableEq, Repr

/-- createFrameList: numFrames = 0, empty list. -/
def createFrameList : FrameList := { numFrames := 0, frames := [] }

/-- insertFrame: link a frame in at the head and increment numFrames. -/
def insertFrame (fl : FrameList) (frame : Frame) : FrameList :=
  { fl with numFrames := fl.numFrames + 1, frames := frame :: fl.frames }

/-- removeFrame: unlink the given node and decrement numFrames. Embedded as
erasing the first structurally equal element. -/
def removeFrame (fl : FrameList) (frame : Frame) : FrameList :=
  { fl with numFrames := fl.numFrames - 1, frames := fl.frames.erase frame }

/-- findFrame: walk the list from the head and return the first frame whose
page equals the requested one (NULL becomes none). -/
def findFrame (fl : FrameList) (page : Int) : Option Frame :=
  fl.frames.find? (fun f => f.page == page)

/-- Embedding of the in-place `frame->frequency++` on the node returned by
findFrame: increment the frequency of the first frame matching the page. -/
def touch (l : List Frame) (page : Int) : List Frame :=
  match l with
  | [] => []
  | f :: fs =>
    if f.page == page then { f with frequency := f.frequency + 1 } :: fs
    else f :: touch fs page

/-- The victim scan of loadPage (part_000 lines 149-156): fold over the list
keeping the current minimum, replacing it only on a strictly smaller
frequency, so the first-scanned frame wins ties. The C code starts both
`lfuFrame` and `current` at the head, so the accumulator starts at the head
and the head is also scanned. -/
def lfuVictim (lfu : Frame) (l : List Frame) : Frame :=
  match l with
  | [] => lfu
  | c :: cs => lfuVictim (if c.frequency < lfu.frequency then c else lfu) cs

/-- loadPage from src/unnamed/part_000 lines 137-161: on a hit increment the
found frame's frequency; on a miss, create the new frame (page, valid = true,
frequency = 1), evict the minimum-frequency frame when the table is full,
then insert the new frame at the head. The empty-list-while-full case is
unreachable from createFrameList (the C code would dereference NULL there);
it is embedded as leaving the list unchanged before the insertion. -/
def loadPage (fl : FrameList) (page : Int) : FrameList :=
  match findFrame fl page with
  | some _ => { fl with frames := touch fl.frames page }
  | none =>
    let newFrame : Frame := { page := page, valid := true, frequency := 1 }
    let fl1 :=
      if fl.numFrames = (NUM_FRAMES : Int) then
        match fl.frames with
        | [] => fl
        | h :: t => removeFrame fl (lfuVictim h (h :: t))
      else fl
    insertFrame fl1 newFrame

/-- Replay of an access sequence from the freshly constructed table, as the
main function does with its hardcoded trace. -/
def run (ps : List Int) : FrameList := ps.foldl loadPage createFrameList

/-- Data-structure invariant of the LFU frame list: the counter matches the
list length, the length never exceeds the capacity, resident page ids are
pairwise distinct, and every listed frame is occupied. -/
def Inv (fl : FrameList) : Prop :=
  fl.numFrames = (fl.frames.length : Int) ∧
  fl.frames.length ≤ NUM_FRAMES ∧
  (fl.frames.map Frame.page).Nodup ∧
  ∀ f ∈ fl.frames, f.valid = true

end LFU

namespace LRU

/-- NUM_FRAMES from src/unnamed/part_001, line 20. -/
abbrev NUM_FRAMES : Nat := 4

/-- Frame from src/unnamed/part_001: page number (-1 if empty) and occupancy
flag; the prev/next pointers are represented by the position inside the list. -/
structure Frame where
  page : Int
  valid : Bool
deriving DecidableEq, Repr

/-- FrameList from src/unnamed/part_001: occupied-frame counter plus the
recency list, head (most recently used) first, tail (least recently used)
last. -/
structure FrameList where
  numFrames : Int
  frames : List Frame
deriving DecidableEq, Repr

/-- createFrameList: numFrames = 0, empty list. -/
def createFrameList : FrameList := { numFrames := 0, frames := [] }

/-- insertFrame: link a frame in at the head and increment numFrames. -/
def insertFrame (fl : FrameList) (frame : Frame) : FrameList :=
  { fl with numFrames := fl.numFrames + 1, frames := frame :: fl.frames }

/-- removeFrame: unlink the given node and decrement numFrames. Embedded as
erasing the first structurally equal element. -/
def removeFrame (fl : FrameList) (frame : Frame) : FrameList :=
  { fl with numFrames := fl.numFrames - 1, frames := fl.frames.erase frame }

/-- moveToHead from src/unnamed/part_001 lines 95-121: if the frame already
is the head nothing happens; otherwise the node is unlinked and relinked at
the front. numFrames is untouched. -/
def moveToHead (fl : FrameList) (frame : Frame) : FrameList :=
  if fl.frames.head? = some frame then fl
  else { fl with frames := frame :: fl.frames.erase frame }

/-- findFrame: walk from the head, return the first frame with the requested
page (NULL becomes none). -/
def findFrame (fl : FrameList) (page : Int) : Option Frame :=
  fl.frames.find? (fun f => f.page == page)

/-- loadPage from src/unnamed/part_001 lines 171-187: on a hit move the found
frame to the head; on a miss create the new frame (page, valid = true), evict
the tail when the table is full, then insert the new frame at the head. The
empty-list-while-full case is unreachable from createFrameList (the C code
would dereference NULL there); it is embedded as leaving the list unchanged
before the insertion. -/
def loadPage (fl : FrameList) (page : Int) : FrameList :=
  match findFrame fl page with
  | some frame => moveToHead fl frame
  | none =>
    let newFrame : Frame := { page := page, valid := true }
    let fl1 :=
      if fl.numFrames = (NUM_FRAMES : Int) then
        match fl.frames.getLast? with
        | none => fl
        | some lruFrame => removeFrame fl lruFrame
      else fl
    insertFrame fl1 newFrame

/-- Replay of an access sequence from the freshly constructed table. -/
def run (ps : List Int) : FrameList := ps.foldl loadPage createFrameList

/-- Data-structure invariant of the LRU frame list: the counter matches the
list length, the length never exceeds the capacity, resident page ids are
pairwise distinct, and every listed frame is occupied. -/
def Inv (fl : FrameList) : Prop :=
  fl.numFrames = (fl.frames.length : Int) ∧
  fl.frames.length ≤ NUM_FRAMES ∧
  (fl.frames.map Frame.page).Nodup ∧
  ∀ f ∈ fl.frames, f.valid = true

end LRU

namespace Clock

/-- NUM_FRAMES from src/LRU-CLOCK.c, line 20. -/
abbrev NUM_FRAMES : Nat := 4

/-- Frame from src/LRU-CLOCK.c: stored page (-1 if empty), occupancy flag and
the Clock reference bit. -/
structure Frame where
  page : Int
  valid : Bool
  reference : Bool
deriving DecidableEq, Repr

/-- FrameList from src/LRU-CLOCK.c: the (never-updated) occupied-frame
counter, the fixed array of NUM_FRAMES frames, and the clock hand. The hand
is embedded as Fin NUM_FRAMES: it starts at 0 and every update in the C code
is `(clockHand + 1) % NUM_FRAMES`, which is exactly Fin addition. -/
structure FrameList where
  numFrames : Int
  frames : Fin NUM_FRAMES → Frame
  clockHand : Fin NUM_FRAMES

/-- createFrameList from src/LRU-CLOCK.c lines 42-54: counter 0, hand 0, all
frames empty (page -1, valid false, reference false). -/
def createFrameList : FrameList :=
  { numFrames := 0
    frames := fun _ => { page := -1, valid := false, reference := false }
    clockHand := 0 }

/-- findFrame from src/LRU-CLOCK.c lines 64-71: scan indices 0..NUM_FRAMES-1
in order and return the first index whose frame stores the page (-1 becomes
none). Validity is not consulted. -/
def findFrame (fl : FrameList) (page : Int) : Option (Fin NUM_FRAMES) :=
  (List.finRange NUM_FRAMES).find? (fun i => (fl.frames i).page == page)

/-- One claiming step of the Clock scan: store the page in the slot under the
hand, mark it occupied with reference bit set, and advance the hand. -/
def claimSlot (fl : FrameList) (page : Int) : FrameList :=
  { fl with
    frames := Function.update fl.frames fl.clockHand
      { page := page, valid := true, reference := true }
    clockHand := fl.clockHand + 1 }

/-- One non-claiming step of the Clock scan: clear the reference bit of the
slot under the hand and advance the hand. -/
def clearAndAdvance (fl : FrameList) : FrameList :=
  { fl with
    frames := Function.update fl.frames fl.clockHand
      { fl.frames fl.clockHand with reference := false }
    clockHand := fl.clockHand + 1 }

/-- The `while (true)` scan of loadPage (src/LRU-CLOCK.c lines 88-102),
embedded with explicit fuel: the C condition
`!frames[hand].valid || !frames[hand].reference` claims the slot, otherwise
the reference bit is cleared and the hand advances. Running out of fuel
yields none; the termination theorem below shows fuel 2 * NUM_FRAMES always
suffices, so the fuelled function is total at that fuel. -/
def clockScan (page : Int) : Nat → FrameList → Option FrameList
  | 0, _ => none
  | fuel + 1, fl =>
    if (fl.frames fl.clockHand).valid && (fl.frames fl.clockHand).reference then
      clockScan page fuel (clearAndAdvance fl)
    else
      some (claimSlot fl page)

/-- loadPage from src/LRU-CLOCK.c lines 80-104: on a hit (findFrame does not
answer -1) set the reference bit of the found slot; on a miss run the scan.
The getD default is never taken, by the termination theorem. -/
def loadPage (fl : FrameList) (page : Int) : FrameList :=
  match findFrame fl page with
  | some i =>
    { fl with
      frames := Function.update fl.frames i { fl.frames i with reference := true } }
  | none => (clockScan page (2 * NUM_FRAMES) fl).getD fl

/-- Replay of an access sequence from the freshly constructed table. -/
def run (ps : List Int) : FrameList := ps.foldl loadPage createFrameList

/-- Number of occupied slots: the slots whose valid flag is set. -/
def occupiedCount (fl : FrameList) : Nat :=
  ((List.finRange NUM_FRAMES).filter (fun i => (fl.frames i).valid)).length

/-- Control-flow skeleton of the Clock scan: the same loop as clockScan,
retaining only the data the loop branches on (the valid and reference bits
and the hand), returning whether a slot is claimed within the given fuel. -/
def scanOk : Nat → (Fin NUM_FRAMES → Bool) → (Fin NUM_FRAMES → Bool) → Fin NUM_FRAMES → Bool
  | 0, _, _, _ => false
  | fuel + 1, v, r, h =>
    if v h && r h then scanOk fuel v (Function.update r h false) (h + 1)
    else true

/-- Data-structure invariant of the Clock frame table: two distinct occupied
slots never store the same page id. -/
def Inv (fl : FrameList) : Prop :=
  ∀ i j : Fin NUM_FRAMES, (fl.frames i).valid = true → (fl.frames j).valid = true →
    (fl.frames i).page = (fl.frames j).page → i = j

end Clock

/-- Erasing an element commutes with mapping a key projection, provided the
projected keys are pairwise distinct (so that the first structurally equal
element is also the first element with that key). -/
theorem map_erase_key {α β : Type} [DecidableEq α] [DecidableEq β] (g : α → β) :
    ∀ (l : List α) (a : α), a ∈ l → (l.map g).Nodup →
      (l.erase a).map g = (l.map g).erase (g a) := by
  intro l
  induction l with
  | nil => intro a ha; cases ha
  | cons x t ih =>
    intro a ha hnd
    by_cases hxa : x = a
    · subst hxa
      simp [List.erase_cons_head]
    · have hat : a ∈ t := by
        rcases List.mem_cons.mp ha with h | h
        · exact absurd h.symm hxa
        · exact h
      have hga : g a ∈ t.map g := List.mem_map_of_mem g hat
      have hgx : g x ∉ t.map g := (List.nodup_cons.mp (by simpa using hnd)).1
      have hgxa : g x ≠ g a := fun h => hgx (h ▸ hga)
      have h1 : (x :: t).erase a = x :: t.erase a :=
        List.erase_cons_tail (by simpa using hxa)
      have h2 : ((x :: t).map g).erase (g a) = g x :: (t.map g).erase (g a) := by
        simpa using List.erase_cons_tail (a := g a) (b := g x) (l := t.map g)
          (by simpa using hgxa)
      rw [h1, h2, List.map_cons, ih a hat (List.nodup_cons.mp (by simpa using hnd)).2]

/-- Erasing the last element of a list with pairwise distinct keys is the same
as dropping the last element. -/
theorem erase_getLast_key {α β : Type} [DecidableEq α] [DecidableEq β] (g : α → β) :
    ∀ (l : List α) (a : α), l.getLast? = some a → (l.map g).Nodup →
      l.erase a = l.dropLast := by
  intro l
  induction l with
  | nil => intro a ha; cases ha
  | cons x t ih =>
    intro a ha hnd
    cases t with
    | nil =>
      simp only [List.getLast?_singleton, Option.some.injEq] at ha
      subst ha
      simp [List.erase_cons_head]
    | cons y s =>
      have hne : (y :: s) ≠ ([] : List α) := List.cons_ne_nil y s
      have ha' : (y :: s).getLast? = some a := by
        simpa [List.getLast?_cons_cons] using ha
      have hmem : a ∈ y :: s := by
        rw [List.getLast?_eq_getLast_of_ne_nil hne] at ha'
        exact (Option.some.injEq _ _ ▸ ha') ▸ List.getLast_mem hne
      have hga : g a ∈ (y :: s).map g := List.mem_map_of_mem g hmem
      have hgx : g x ∉ (y :: s).map g := (List.nodup_cons.mp (by simpa using hnd)).1
      have hxa : x ≠ a := fun h => hgx (h ▸ hga)
      have h1 : (x :: y :: s).erase a = x :: (y :: s).erase a :=
        List.erase_cons_tail (by simpa using hxa)
      rw [h1, ih a ha' (List.nodup_cons.mp (by simpa using hnd)).2]
      simp [List.dropLast_cons₂]

namespace LFU

/-- Touching a page changes no frame's page id. -/
theorem touch_map_page (p : Int) :
    ∀ l : List Frame, (touch l p).map Frame.page = l.map Frame.page := by
  intro l
  induction l with
  | nil => rfl
  | cons f fs ih =>
    by_cases h : f.page = p
    · simp [touch, h]
    · simp [touch, h, ih]

/-- Touching a page changes no frame's occupancy flag. -/
theorem touch_map_valid (p : Int) :
    ∀ l : List Frame, (touch l p).map Frame.valid = l.map Frame.valid := by
  intro l
  induction l with
  | nil => rfl
  | cons f fs ih =>
    by_cases h : f.page = p
    · simp [touch, h]
    · simp [touch, h, ih]

/-- Touching a page does not change the number of frames. -/
theorem touch_length (p : Int) :
    ∀ l : List Frame, (touch l p).length = l.length := by
  intro l
  induction l with
  | nil => rfl
  | cons f fs ih =>
    by_cases h : f.page = p
    · simp [touch, h]
    · simp [touch, h, ih]

/-- Decomposition of touch on a hit: the list splits at the first frame whose
page matches; only that frame's frequency is incremented, every frame before
and after it is unchanged in place. -/
theorem touch_decomp :
    ∀ (l : List Frame) (p : Int), (∃ f ∈ l, f.page = p) →
      ∃ l1 f l2, l = l1 ++ f :: l2 ∧ (∀ g ∈ l1, g.page ≠ p) ∧ f.page = p ∧
        touch l p = l1 ++ ({ f with frequency := f.frequency + 1 }) :: l2 := by
  intro l
  induction l with
  | nil =>
    intro p hp
    obtain ⟨f, hf, _⟩ := hp
    cases hf
  | cons x xs ih =>
    intro p hp
    by_cases hx : x.page = p
    · exact ⟨[], x, xs, by simp, by simp, hx, by simp [touch, hx]⟩
    · have hp' : ∃ f ∈ xs, f.page = p := by
        obtain ⟨f, hf, hfp⟩ := hp
        rcases List.mem_cons.mp hf with rfl | hf
        · exact absurd hfp hx
        · exact ⟨f, hf, hfp⟩
      obtain ⟨l1, f, l2, hsplit, hl1, hfp, htouch⟩ := ih p hp'
      refine ⟨x :: l1, f, l2, by simp [hsplit], ?_, hfp, ?_⟩
      · intro g hg
        rcases List.mem_cons.mp hg with rfl | hg
        · exact hx
        · exact hl1 g hg
      · simp [touch, hx, htouch]

/-- On a hit, loadPage is exactly the frequency increment on the stored list. -/
theorem lfu_loadPage_hit (fl : FrameList) (p : Int) (f : Frame)
    (h : findFrame fl p = some f) :
    loadPage fl p = { fl with frames := touch fl.frames p } := by
  unfold loadPage
  rw [h]

/-- The victim scan returns the accumulator or a member of the scanned list. -/
theorem lfuVictim_mem (a : Frame) :
    ∀ l : List Frame, lfuVictim a l = a ∨ lfuVictim a l ∈ l := by
  intro l
  induction l generalizing a with
  | nil => exact Or.inl rfl
  | cons c cs ih =>
    by_cases h : c.frequency < a.frequency
    · rcases ih c with h1 | h1
      · exact Or.inr (by simp [lfuVictim, h, h1])
      · exact Or.inr (by simp [lfuVictim, h, h1])
    · rcases ih a with h1 | h1
      · exact Or.inl (by simp [lfuVictim, h, h1])
      · exact Or.inr (by simp [lfuVictim, h, h1])

/-- The victim's frequency is a lower bound for the accumulator and every
scanned frame. -/
theorem lfuVictim_min (a : Frame) :
    ∀ l : List Frame, (lfuVictim a l).frequency ≤ a.frequency ∧
      ∀ f ∈ l, (lfuVictim a l).frequency ≤ f.frequency := by
  intro l
  induction l generalizing a with
  | nil => exact ⟨le_refl _, by simp⟩
  | cons c cs ih =>
    by_cases h : c.frequency < a.frequency
    · have hred : lfuVictim a (c :: cs) = lfuVictim c cs := by simp [lfuVictim, h]
      have h1 := ih c
      rw [hred]
      refine ⟨le_trans h1.1 (le_of_lt h), ?_⟩
      intro f hf
      rcases List.mem_cons.mp hf with rfl | hf
      · exact h1.1
      · exact h1.2 f hf
    · have hred : lfuVictim a (c :: cs) = lfuVictim a cs := by simp [lfuVictim, h]
      have h1 := ih a
      rw [hred]
      refine ⟨h1.1, ?_⟩
      intro f hf
      rcases List.mem_cons.mp hf with rfl | hf
      · exact le_trans h1.1 (le_of_not_lt h)
      · exact h1.2 f hf

/-- A strictly-lesser comparison never lets a tied frame displace the held
candidate: if no scanned frame is strictly cheaper than the accumulator, the
accumulator is returned. -/
theorem lfuVictim_eq_self (a : Frame) :
    ∀ l : List Frame, (∀ f ∈ l, a.frequency ≤ f.frequency) → lfuVictim a l = a := by
  intro l
  induction l generalizing a with
  | nil => intro _; rfl
  | cons c cs ih =>
    intro hall
    have hc : ¬ c.frequency < a.frequency := not_lt.mpr (hall c (by simp))
    have := ih a (fun f hf => hall f (List.mem_cons_of_mem c hf))
    simpa [lfuVictim, hc] using this

theorem lfu_inv_createFrameList : Inv createFrameList := by
  refine ⟨rfl, by simp [createFrameList, NUM_FRAMES], by simp [createFrameList], ?_⟩
  intro f hf
  simp [createFrameList] at hf

/-- loadPage preserves the LFU invariant. -/
theorem lfu_inv_loadPage (fl : FrameList) (p : Int) (h : Inv fl) : Inv (loadPage fl p) := by
  obtain ⟨hn, hlen, hnd, hval⟩ := h
  unfold loadPage
  cases hfind : findFrame fl p with
  | some f =>
    refine ⟨by simpa [touch_length] using hn, by simpa [touch_length] using hlen,
      by simpa [touch_map_page] using hnd, ?_⟩
    intro g hg
    have : g.valid ∈ (touch fl.frames p).map Frame.valid := List.mem_map_of_mem _ hg
    rw [touch_map_valid] at this
    rcases List.mem_map.mp this with ⟨g', hg', hgv⟩
    rw [← hgv]
    exact hval g' hg'
  | none =>
    have hpnew : p ∉ fl.frames.map Frame.page := by
      intro hp
      rcases List.mem_map.mp hp with ⟨f, hf, hfp⟩
      have := (List.find?_eq_none.mp hfind) f hf
      simp [hfp] at this
    by_cases hfull : fl.numFrames = (NUM_FRAMES : Int)
    · cases hframes : fl.frames with
      | nil =>
        exfalso
        rw [hframes] at hn
        simp at hn
        rw [hn] at hfull
        simp [NUM_FRAMES] at hfull
      | cons hd tl =>
        have hvic : lfuVictim hd (hd :: tl) ∈ hd :: tl := by
          rcases lfuVictim_mem hd (hd :: tl) with h1 | h1
          · rw [h1]; simp
          · exact h1
        have hnd' : ((hd :: tl).map Frame.page).Nodup := by rw [← hframes]; exact hnd
        have herase : ((hd :: tl).erase (lfuVictim hd (hd :: tl))).map Frame.page
            = ((hd :: tl).map Frame.page).erase (lfuVictim hd (hd :: tl)).page :=
          map_erase_key Frame.page _ _ hvic hnd'
        have hlen4 : fl.frames.length = 4 := by
          have : ((fl.frames.length : Int)) = 4 := by rw [← hn]; simpa [NUM_FRAMES] using hfull
          exact_mod_cast this
        have hellen : ((hd :: tl).erase (lfuVictim hd (hd :: tl))).length = 3 := by
          rw [List.length_erase_of_mem hvic]
          rw [← hframes, hlen4]
        simp only [hfull, if_pos, hframes, removeFrame, insertFrame]
        refine ⟨?_, ?_, ?_, ?_⟩
        · simp only [List.length_cons, hellen]
          norm_num [NUM_FRAMES]
        · simp [hellen, NUM_FRAMES]
        · simp only [List.map_cons, herase]
          refine List.nodup_cons.mpr ⟨?_, ?_⟩
          · intro hp
            exact hpnew (by rw [hframes]; exact (List.erase_sublist _ _).mem hp)
          · exact hnd'.erase _
        · intro g hg
          rcases List.mem_cons.mp hg with rfl | hg
          · rfl
          · exact hval g (by rw [hframes]; exact (List.erase_sublist _ _).mem hg)
    · have hlenne : fl.frames.length ≠ NUM_FRAMES := by
        intro he
        exact hfull (by rw [hn, he])
      have hlt : fl.frames.length < 4 := by
        have h1 : fl.frames.length ≤ 4 := hlen
        have h2 : fl.frames.length ≠ 4 := hlenne
        omega
      rw [if_neg hfull]
      simp only [insertFrame]
      refine ⟨by rw [hn]; simp [List.length_cons], ?_, ?_, ?_⟩
      · show fl.frames.length + 1 ≤ 4
        omega
      · exact List.nodup_cons.mpr ⟨hpnew, hnd⟩
      · intro g hg
        rcases List.mem_cons.mp hg with rfl | hg
        · rfl
        · exact hval g hg

/-- Every state reached by replaying an access sequence satisfies the LFU
invariant. -/
theorem lfu_inv_run (ps : List Int) : Inv (run ps) := by
  suffices h : ∀ fl, Inv fl → Inv (ps.foldl loadPage fl) from h _ lfu_inv_createFrameList
  induction ps with
  | nil => intro fl h; exact h
  | cons p ps ih => intro fl h; exact ih _ (lfu_inv_loadPage fl p h)

end LFU

namespace LRU

theorem lru_inv_createFrameList : Inv createFrameList := by
  refine ⟨rfl, by simp [createFrameList, NUM_FRAMES], by simp [createFrameList], ?_⟩
  intro f hf
  simp [createFrameList] at hf

/-- moveToHead permutes the frame list (it never adds or drops a frame). -/
theorem moveToHead_perm (fl : FrameList) (f : Frame) (hf : f ∈ fl.frames) :
    (moveToHead fl f).frames.Perm fl.frames := by
  unfold moveToHead
  by_cases h : fl.frames.head? = some f
  · rw [if_pos h]
  · rw [if_neg h]
    exact (List.perm_cons_erase hf).symm

/-- moveToHead relinks the given resident frame at the head: whether or not
the frame already was the head, the resulting list is the frame followed by
the rest in their original order. -/
theorem moveToHead_frames (fl : FrameList) (f : Frame) (hmem : f ∈ fl.frames) :
    (moveToHead fl f).frames = f :: fl.frames.erase f := by
  unfold moveToHead
  by_cases h : fl.frames.head? = some f
  · rw [if_pos h]
    cases hfr : fl.frames with
    | nil => rw [hfr] at h; simp at h
    | cons x t =>
      rw [hfr] at h
      simp only [List.head?_cons, Option.some.injEq] at h
      subst h
      rw [List.erase_cons_head]
  · rw [if_neg h]

/-- moveToHead does not touch the occupied-frame counter. -/
theorem moveToHead_numFrames (fl : FrameList) (f : Frame) :
    (moveToHead fl f).numFrames = fl.numFrames := by
  unfold moveToHead
  by_cases h : fl.frames.head? = some f
  · rw [if_pos h]
  · rw [if_neg h]

/-- On a hit, loadPage is exactly moveToHead on the found frame. -/
theorem lru_loadPage_hit (fl : FrameList) (p : Int) (f : Frame)
    (h : findFrame fl p = some f) : loadPage fl p = moveToHead fl f := by
  unfold loadPage
  rw [h]

/-- findFrame returns the first frame storing the page: the list splits into
earlier frames with different pages, the found frame, and the rest. -/
theorem findFrame_decomp :
    ∀ (l : List Frame) (p : Int) (f : Frame),
      l.find? (fun g => g.page == p) = some f →
      ∃ l1 l2, l = l1 ++ f :: l2 ∧ ∀ g ∈ l1, g.page ≠ p := by
  intro l
  induction l with
  | nil =>
    intro p f h
    simp [List.find?] at h
  | cons x xs ih =>
    intro p f h
    by_cases hx : x.page = p
    · rw [List.find?_cons_of_pos (p := fun g : Frame => g.page == p) xs
        (by simp [hx])] at h
      obtain rfl := Option.some.inj h
      exact ⟨[], xs, by simp, by simp⟩
    · rw [List.find?_cons_of_neg (p := fun g : Frame => g.page == p) xs
        (by simp [hx])] at h
      obtain ⟨l1, l2, hsplit, hl1⟩ := ih p f h
      refine ⟨x :: l1, l2, by simp [hsplit], ?_⟩
      intro g hg
      rcases List.mem_cons.mp hg with rfl | hg
      · exact hx
      · exact hl1 g hg

/-- moveToHead on the first frame storing page p relinks exactly that frame
at the head; every other frame is kept unchanged and in its original relative
order. -/
theorem moveToHead_decomp (fl : FrameList) (p : Int) (f : Frame) (l1 l2 : List Frame)
    (hsplit : fl.frames = l1 ++ f :: l2) (hl1 : ∀ g ∈ l1, g.page ≠ p)
    (hfp : f.page = p) :
    (moveToHead fl f).frames = f :: (l1 ++ l2) := by
  have hf_not_l1 : f ∉ l1 := fun hf => hl1 f hf hfp
  unfold moveToHead
  by_cases hhead : fl.frames.head? = some f
  · rw [if_pos hhead]
    cases l1 with
    | nil => simpa using hsplit
    | cons y ys =>
      exfalso
      rw [hsplit] at hhead
      simp only [List.cons_append, List.head?_cons, Option.some.injEq] at hhead
      exact hf_not_l1 (hhead ▸ List.mem_cons_self y ys)
  · rw [if_neg hhead]
    rw [hsplit, List.erase_append_right _ (by simpa using hf_not_l1),
      List.erase_cons_head]

/-- loadPage preserves the LRU invariant. -/
theorem lru_inv_loadPage (fl : FrameList) (p : Int) (h : Inv fl) : Inv (loadPage fl p) := by
  obtain ⟨hn, hlen, hnd, hval⟩ := h
  unfold loadPage
  cases hfind : findFrame fl p with
  | some f =>
    have hfmem : f ∈ fl.frames := List.mem_of_find?_eq_some hfind
    have hperm := moveToHead_perm fl f hfmem
    refine ⟨?_, ?_, ?_, ?_⟩
    · rw [moveToHead_numFrames, hperm.length_eq, hn]
    · rw [hperm.length_eq]; exact hlen
    · exact (hperm.map Frame.page).nodup_iff.mpr hnd
    · intro g hg
      exact hval g (hperm.mem_iff.mp hg)
  | none =>
    have hpnew : p ∉ fl.frames.map Frame.page := by
      intro hp
      rcases List.mem_map.mp hp with ⟨f, hf, hfp⟩
      have := (List.find?_eq_none.mp hfind) f hf
      simp [hfp] at this
    by_cases hfull : fl.numFrames = (NUM_FRAMES : Int)
    · have hlen4 : fl.frames.length = 4 := by
        have : ((fl.frames.length : Int)) = 4 := by rw [← hn]; simpa [NUM_FRAMES] using hfull
        exact_mod_cast this
      have hne : fl.frames ≠ [] := by
        intro he
        rw [he] at hlen4
        simp at hlen4
      have hlast : fl.frames.getLast? = some (fl.frames.getLast hne) :=
        List.getLast?_eq_getLast_of_ne_nil hne
      have hvicmem : fl.frames.getLast hne ∈ fl.frames := List.getLast_mem hne
      rw [if_pos hfull, hlast]
      simp only [removeFrame, insertFrame]
      have herase : (fl.frames.erase (fl.frames.getLast hne)).map Frame.page
          = (fl.frames.map Frame.page).erase (fl.frames.getLast hne).page :=
        map_erase_key Frame.page _ _ hvicmem hnd
      have hellen : (fl.frames.erase (fl.frames.getLast hne)).length = 3 := by
        rw [List.length_erase_of_mem hvicmem, hlen4]
      refine ⟨?_, ?_, ?_, ?_⟩
      · simp only [List.length_cons, hellen]
        rw [hfull]
        norm_num [NUM_FRAMES]
      · simp [hellen, NUM_FRAMES]
      · simp only [List.map_cons, herase]
        refine List.nodup_cons.mpr ⟨?_, ?_⟩
        · intro hp
          exact hpnew ((List.erase_sublist _ _).mem hp)
        · exact hnd.erase _
      · intro g hg
        rcases List.mem_cons.mp hg with rfl | hg
        · rfl
        · exact hval g ((List.erase_sublist _ _).mem hg)
    · have hlenne : fl.frames.length ≠ NUM_FRAMES := by
        intro he
        exact hfull (by rw [hn, he])
      have hlt : fl.frames.length < 4 := by
        have h1 : fl.frames.length ≤ 4 := hlen
        have h2 : fl.frames.length ≠ 4 := hlenne
        omega
      rw [if_neg hfull]
      simp only [insertFrame]
      refine ⟨by rw [hn]; simp [List.length_cons], ?_, ?_, ?_⟩
      · show fl.frames.length + 1 ≤ 4
        omega
      · exact List.nodup_cons.mpr ⟨hpnew, hnd⟩
      · intro g hg
        rcases List.mem_cons.mp hg with rfl | hg
        · rfl
        · exact hval g hg

/-- Every state reached by replaying an access sequence satisfies the LRU
invariant. -/
theorem lru_inv_run (ps : List Int) : Inv (run ps) := by
  suffices h : ∀ fl, Inv fl → Inv (ps.foldl loadPage fl) from h _ lru_inv_createFrameList
  induction ps with
  | nil => intro fl h; exact h
  | cons p ps ih => intro fl h; exact ih _ (lru_inv_loadPage fl p h)

end LRU

namespace Clock

/-- A non-claiming scan step leaves every slot's page and valid flag
unchanged (only a reference bit and the hand move). -/
theorem clearAndAdvance_page_valid (fl : FrameList) (i : Fin NUM_FRAMES) :
    ((clearAndAdvance fl).frames i).page = (fl.frames i).page ∧
    ((clearAndAdvance fl).frames i).valid = (fl.frames i).valid := by
  unfold clearAndAdvance
  by_cases h : i = fl.clockHand
  · subst h; simp [Function.update_apply]
  · simp [Function.update_apply, h]

/-- The scan never touches the numFrames counter. -/
theorem clockScan_numFrames (p : Int) :
    ∀ (fuel : Nat) (fl fl' : FrameList), clockScan p fuel fl = some fl' →
      fl'.numFrames = fl.numFrames := by
  intro fuel
  induction fuel with
  | zero => intro fl fl' h; exact absurd h (by simp [clockScan])
  | succ n ih =>
    intro fl fl' h
    unfold clockScan at h
    by_cases hc : (fl.frames fl.clockHand).valid && (fl.frames fl.clockHand).reference
    · rw [if_pos hc] at h
      have := ih _ _ h
      simpa [clearAndAdvance] using this
    · rw [if_neg hc] at h
      have := Option.some.inj h
      rw [← this]
      rfl

/-- Characterization of a successful scan: one slot now stores the new page
and is occupied with reference bit set; every other slot keeps its page and
occupancy. -/
theorem clockScan_frames (p : Int) :
    ∀ (fuel : Nat) (fl fl' : FrameList), clockScan p fuel fl = some fl' →
      ∃ k, fl'.frames k = { page := p, valid := true, reference := true } ∧
        ∀ i, i ≠ k → (fl'.frames i).page = (fl.frames i).page ∧
          (fl'.frames i).valid = (fl.frames i).valid := by
  intro fuel
  induction fuel with
  | zero => intro fl fl' h; exact absurd h (by simp [clockScan])
  | succ n ih =>
    intro fl fl' h
    unfold clockScan at h
    by_cases hc : (fl.frames fl.clockHand).valid && (fl.frames fl.clockHand).reference
    · rw [if_pos hc] at h
      obtain ⟨k, hk, hrest⟩ := ih _ _ h
      refine ⟨k, hk, ?_⟩
      intro i hi
      obtain ⟨h1, h2⟩ := hrest i hi
      obtain ⟨h3, h4⟩ := clearAndAdvance_page_valid fl i
      exact ⟨h1.trans h3, h2.trans h4⟩
    · rw [if_neg hc] at h
      have hfl' := Option.some.inj h
      refine ⟨fl.clockHand, ?_, ?_⟩
      · rw [← hfl']; simp [claimSlot]
      · intro i hi
        rw [← hfl']
        simp [claimSlot, Function.update_apply, hi]

/-- Bridge lemma: whether the fuelled scan succeeds depends only on the valid
bits, the reference bits and the hand position. -/
theorem clockScan_isSome (p : Int) :
    ∀ (fuel : Nat) (fl : FrameList),
      (clockScan p fuel fl).isSome
        = scanOk fuel (fun i => (fl.frames i).valid)
            (fun i => (fl.frames i).reference) fl.clockHand := by
  intro fuel
  induction fuel with
  | zero => intro fl; simp [clockScan, scanOk]
  | succ n ih =>
    intro fl
    unfold clockScan scanOk
    by_cases hc : (fl.frames fl.clockHand).valid && (fl.frames fl.clockHand).reference
    · rw [if_pos hc, if_pos hc, ih]
      have hv : (fun i => ((clearAndAdvance fl).frames i).valid)
          = (fun i => (fl.frames i).valid) :=
        funext fun i => (clearAndAdvance_page_valid fl i).2
      have hr : (fun i => ((clearAndAdvance fl).frames i).reference)
          = Function.update (fun i => (fl.frames i).reference) fl.clockHand false := by
        funext i
        by_cases h : i = fl.clockHand
        · subst h; simp [clearAndAdvance, Function.update_apply]
        · simp [clearAndAdvance, Function.update_apply, h]
      rw [hv, hr]
      rfl
    · rw [if_neg hc, if_neg hc]
      rfl

/-- Whatever the bits and hand position, the scan claims a slot within
2 * NUM_FRAMES steps: a full failed pass clears every reference bit on its
way, so the pass can fail at most NUM_FRAMES times before a claim. -/
theorem scanOk_bound : ∀ (v r : Fin NUM_FRAMES → Bool) (h : Fin NUM_FRAMES),
    scanOk (2 * NUM_FRAMES) v r h = true := by decide

theorem clock_inv_createFrameList : Inv createFrameList := by
  intro i j hi hj hp
  simp [createFrameList] at hi

/-- loadPage preserves the Clock invariant. -/
theorem clock_inv_loadPage (fl : FrameList) (p : Int) (h : Inv fl) : Inv (loadPage fl p) := by
  unfold loadPage
  cases hfind : findFrame fl p with
  | some idx =>
    intro i j hi hj hp
    have hsame : ∀ m : Fin NUM_FRAMES,
        ((Function.update fl.frames idx
          { fl.frames idx with reference := true }) m).page = (fl.frames m).page ∧
        ((Function.update fl.frames idx
          { fl.frames idx with reference := true }) m).valid = (fl.frames m).valid := by
      intro m
      by_cases hm : m = idx
      · subst hm; simp [Function.update_apply]
      · simp [Function.update_apply, hm]
    simp only at hi hj hp
    exact h i j ((hsame i).2 ▸ hi) ((hsame j).2 ▸ hj)
      (((hsame i).1.symm.trans hp).trans (hsame j).1)
  | none =>
    have hnone : ∀ i : Fin NUM_FRAMES, (fl.frames i).page ≠ p := by
      intro i
      have := (List.find?_eq_none.mp hfind) i (List.mem_finRange i)
      simpa using this
    cases hscan : clockScan p (2 * NUM_FRAMES) fl with
    | none => simpa [hscan] using h
    | some fl' =>
      simp only [hscan, Option.getD_some]
      obtain ⟨k, hk, hrest⟩ := clockScan_frames p _ fl fl' hscan
      intro i j hi hj hp
      by_cases hik : i = k
      · by_cases hjk : j = k
        · rw [hik, hjk]
        · exfalso
          obtain ⟨hj1, _⟩ := hrest j hjk
          rw [hik, hk] at hp
          exact hnone j (by rw [← hj1, ← hp])
      · by_cases hjk : j = k
        · exfalso
          obtain ⟨hi1, _⟩ := hrest i hik
          rw [hjk, hk] at hp
          exact hnone i (by rw [← hi1, hp])
        · obtain ⟨hi1, hi2⟩ := hrest i hik
          obtain ⟨hj1, hj2⟩ := hrest j hjk
          exact h i j (hi2 ▸ hi) (hj2 ▸ hj) (by rw [← hi1, ← hj1]; exact hp)

/-- Every state reached by replaying an access sequence satisfies the Clock
invariant. -/
theorem clock_inv_run (ps : List Int) : Inv (run ps) := by
  suffices h : ∀ fl, Inv fl → Inv (ps.foldl loadPage fl) from h _ clock_inv_createFrameList
  induction ps with
  | nil => intro fl h; exact h
  | cons p ps ih => intro fl h; exact ih _ (clock_inv_loadPage fl p h)

/-- loadPage never modifies the numFrames counter. -/
theorem loadPage_numFrames (fl : FrameList) (p : Int) :
    (loadPage fl p).numFrames = fl.numFrames := by
  unfold loadPage
  cases hfind : findFrame fl p with
  | some idx => rfl
  | none =>
    cases hscan : clockScan p (2 * NUM_FRAMES) fl with
    | none => simp [hscan]
    | some fl' =>
      simp only [hscan, Option.getD_some]
      exact clockScan_numFrames p _ fl fl' hscan

end Clock

/-- C1: for every sequence of loadPage calls on any of the three policies,
starting from the freshly constructed frame table, the number of occupied
frames (the length of the resident list for LFU and LRU, the number of slots
with valid = true for Clock) never exceeds the fixed capacity NUM_FRAMES. -/
theorem claim_c1_capacity_invariant (ps : List Int) :
    (LFU.run ps).frames.length ≤ LFU.NUM_FRAMES ∧
    (LRU.run ps).frames.length ≤ LRU.NUM_FRAMES ∧
    Clock.occupiedCount (Clock.run ps) ≤ Clock.NUM_FRAMES := by
  refine ⟨(LFU.lfu_inv_run ps).2.1, (LRU.lru_inv_run ps).2.1, ?_⟩
  unfold Clock.occupiedCount
  calc ((List.finRange Clock.NUM_FRAMES).filter
          (fun i => ((Clock.run ps).frames i).valid)).length
      ≤ (List.finRange Clock.NUM_FRAMES).length := List.length_filter_le _ _
    _ = Clock.NUM_FRAMES := List.length_finRange _

/-- C2: after every sequence of loadPage calls on any of the three policies,
no page identifier is resident in two frames simultaneously: the resident
page ids are pairwise distinct (for Clock: two occupied slots with the same
page id are the same slot). -/
theorem claim_c2_residency_uniqueness (ps : List Int) :
    ((LFU.run ps).frames.map LFU.Frame.page).Nodup ∧
    ((LRU.run ps).frames.map LRU.Frame.page).Nodup ∧
    ∀ i j : Fin Clock.NUM_FRAMES,
      ((Clock.run ps).frames i).valid = true →
      ((Clock.run ps).frames j).valid = true →
      ((Clock.run ps).frames i).page = ((Clock.run ps).frames j).page → i = j :=
  ⟨(LFU.lfu_inv_run ps).2.2.1, (LRU.lru_inv_run ps).2.2.1, Clock.clock_inv_run ps⟩

/-- Witness for C2 at a concrete run: slot 0 of the Clock table after loading
page 1 is occupied, and the uniqueness property applied at i = j = 0 holds. -/
theorem claim_c2_residency_uniqueness_witness :
    ((Clock.run [1]).frames 0).valid = true ∧ (0 : Fin Clock.NUM_FRAMES) = 0 :=
  ⟨by decide,
    (claim_c2_residency_uniqueness [1]).2.2 0 0 (by decide) (by decide) (by decide)⟩

/-- C10: the Clock implementation sets numFrames to 0 at construction and no
loadPage call ever modifies it, so it stays 0 for every access sequence even
once all slots are occupied. -/
theorem claim_c10_numFrames_never_updated (ps : List Int) :
    Clock.createFrameList.numFrames = 0 ∧
    (∀ (fl : Clock.FrameList) (p : Int),
      (Clock.loadPage fl p).numFrames = fl.numFrames) ∧
    (Clock.run ps).numFrames = 0 := by
  refine ⟨rfl, fun fl p => Clock.loadPage_numFrames fl p, ?_⟩
  suffices h : ∀ fl : Clock.FrameList,
      (ps.foldl Clock.loadPage fl).numFrames = fl.numFrames by
    exact (h Clock.createFrameList).trans rfl
  induction ps with
  | nil => intro fl; rfl
  | cons p ps ih =>
    intro fl
    simpa [Clock.loadPage_numFrames] using ih (Clock.loadPage fl p)

/-- C3: the LFU victim scan keeps the first frame whose frequency is strictly
below the running minimum, so the victim is a resident frame of minimal
frequency and a tie never displaces the already-held (earlier-scanned)
candidate; concretely, on the access sequence 1,2,3,4,5,1,2,1,3,4 with
capacity 4, the miss on 5 evicts 4 (head-to-tail list goes from 4,3,2,1 to
5,3,2,1), the final miss on 4 evicts 5, and the final list head-to-tail is
4 (freq 1), 3 (freq 2), 2 (freq 2), 1 (freq 3). -/
theorem claim_c3_lfu_victim_selection :
    (∀ (a : LFU.Frame) (l : List LFU.Frame),
      (LFU.lfuVictim a l = a ∨ LFU.lfuVictim a l ∈ l) ∧
      (LFU.lfuVictim a l).frequency ≤ a.frequency ∧
      (∀ f ∈ l, (LFU.lfuVictim a l).frequency ≤ f.frequency) ∧
      ((∀ f ∈ l, a.frequency ≤ f.frequency) → LFU.lfuVictim a l = a)) ∧
    (LFU.run [1, 2, 3, 4]).frames.map LFU.Frame.page = [4, 3, 2, 1] ∧
    (LFU.run [1, 2, 3, 4, 5]).frames.map LFU.Frame.page = [5, 3, 2, 1] ∧
    (LFU.run [1, 2, 3, 4, 5, 1, 2, 1, 3]).frames.map
        (fun f => (f.page, f.frequency)) = [(5, 1), (3, 2), (2, 2), (1, 3)] ∧
    (LFU.run [1, 2, 3, 4, 5, 1, 2, 1, 3, 4]).frames.map
        (fun f => (f.page, f.frequency)) = [(4, 1), (3, 2), (2, 2), (1, 3)] := by
  refine ⟨?_, by decide, by decide, by decide, by decide⟩
  intro a l
  exact ⟨LFU.lfuVictim_mem a l, (LFU.lfuVictim_min a l).1,
    (LFU.lfuVictim_min a l).2, LFU.lfuVictim_eq_self a l⟩

/-- Witness for C3: on a two-frame list tied at frequency 2, the scan keeps
the accumulator (the first-scanned frame). -/
theorem claim_c3_lfu_victim_selection_witness :
    LFU.lfuVictim { page := 1, valid := true, frequency := 2 }
        [{ page := 2, valid := true, frequency := 2 }]
      = { page := 1, valid := true, frequency := 2 } :=
  (claim_c3_lfu_victim_selection.1 { page := 1, valid := true, frequency := 2 }
    [{ page := 2, valid := true, frequency := 2 }]).2.2.2 (by decide)

/-- C4: under LRU, a miss against a full reachable table always evicts the
tail of the recency list and inserts the new page at the head, leaving the
other frames' order intact; concretely, with capacity 4 loading 1,2,3,4
yields head-to-tail 4,3,2,1 and then loading 5 evicts page 1 (the tail) and
yields 5,4,3,2. -/
theorem claim_c4_lru_victim_is_tail (ps : List Int) (p : Int) :
    ((LRU.run ps).numFrames = (LRU.NUM_FRAMES : Int) →
      LRU.findFrame (LRU.run ps) p = none →
      (LRU.loadPage (LRU.run ps) p).frames
        = { page := p, valid := true } :: (LRU.run ps).frames.dropLast) ∧
    (LRU.run [1, 2, 3, 4]).frames.map LRU.Frame.page = [4, 3, 2, 1] ∧
    ((LRU.run [1, 2, 3, 4]).frames.getLast?.map LRU.Frame.page = some 1) ∧
    (LRU.run [1, 2, 3, 4, 5]).frames.map LRU.Frame.page = [5, 4, 3, 2] := by
  refine ⟨?_, by decide, by decide, by decide⟩
  intro hfull hmiss
  obtain ⟨hn, _, hnd, _⟩ := LRU.lru_inv_run ps
  have hlen4 : (LRU.run ps).frames.length = 4 := by
    have h4 : (((LRU.run ps).frames.length : Int)) = 4 := by
      rw [← hn]
      simpa [LRU.NUM_FRAMES] using hfull
    exact_mod_cast h4
  have hne : (LRU.run ps).frames ≠ [] := by
    intro he
    rw [he] at hlen4
    simp at hlen4
  have hlast : (LRU.run ps).frames.getLast? = some ((LRU.run ps).frames.getLast hne) :=
    List.getLast?_eq_getLast_of_ne_nil hne
  unfold LRU.loadPage
  rw [hmiss, if_pos hfull, hlast]
  simp only [LRU.removeFrame, LRU.insertFrame, List.cons.injEq, true_and]
  exact erase_getLast_key LRU.Frame.page _ _ hlast hnd

/-- Witness for C4 at the concrete full table reached by loading 1,2,3,4 and
then missing on 5. -/
theorem claim_c4_lru_victim_is_tail_witness :
    (LRU.loadPage (LRU.run [1, 2, 3, 4]) 5).frames
      = { page := 5, valid := true } :: (LRU.run [1, 2, 3, 4]).frames.dropLast :=
  (claim_c4_lru_victim_is_tail [1, 2, 3, 4] 5).1 (by decide) (by decide)

/-- C5: under Clock with capacity 4 and hand starting at 0, loading 1,2,3,4
occupies the four slots in index order with all reference bits true and hand
back at 0; the subsequent miss on 5 clears all four reference bits during
the scan, reclaims slot 0 for page 5 (reference bit true), and leaves the
hand at 1. -/
theorem claim_c5_clock_scenario :
    ((Clock.run [1, 2, 3, 4]).frames 0
        = { page := 1, valid := true, reference := true } ∧
      (Clock.run [1, 2, 3, 4]).frames 1
        = { page := 2, valid := true, reference := true } ∧
      (Clock.run [1, 2, 3, 4]).frames 2
        = { page := 3, valid := true, reference := true } ∧
      (Clock.run [1, 2, 3, 4]).frames 3
        = { page := 4, valid := true, reference := true } ∧
      (Clock.run [1, 2, 3, 4]).clockHand = 0) ∧
    ((Clock.run [1, 2, 3, 4, 5]).frames 0
        = { page := 5, valid := true, reference := true } ∧
      (Clock.run [1, 2, 3, 4, 5]).frames 1
        = { page := 2, valid := true, reference := false } ∧
      (Clock.run [1, 2, 3, 4, 5]).frames 2
        = { page := 3, valid := true, reference := false } ∧
      (Clock.run [1, 2, 3, 4, 5]).frames 3
        = { page := 4, valid := true, reference := false } ∧
      (Clock.run [1, 2, 3, 4, 5]).clockHand = 1) := by
  exact ⟨⟨by decide, by decide, by decide, by decide, by decide⟩,
    ⟨by decide, by decide, by decide, by decide, by decide⟩⟩

/-- C6: on any state (in particular every reachable one), a loadPage call
that misses terminates: the fuelled scan claims a slot within 2 * NUM_FRAMES
iterations, and loadPage returns exactly that claimed state. -/
theorem claim_c6_clock_scan_terminates (fl : Clock.FrameList) (p : Int)
    (hmiss : Clock.findFrame fl p = none) :
    ∃ fl', Clock.clockScan p (2 * Clock.NUM_FRAMES) fl = some fl' ∧
      Clock.loadPage fl p = fl' := by
  have h1 : (Clock.clockScan p (2 * Clock.NUM_FRAMES) fl).isSome = true := by
    rw [Clock.clockScan_isSome]
    exact Clock.scanOk_bound _ _ _
  obtain ⟨fl', hfl'⟩ := Option.isSome_iff_exists.mp h1
  refine ⟨fl', hfl', ?_⟩
  simp [Clock.loadPage, hmiss, hfl']

/-- Witness for C6 at the worst case: a full table with every reference bit
set, missing on page 7. -/
theorem claim_c6_clock_scan_terminates_witness :
    ∃ fl', Clock.clockScan 7 (2 * Clock.NUM_FRAMES) (Clock.run [1, 2, 3, 4])
        = some fl' ∧
      Clock.loadPage (Clock.run [1, 2, 3, 4]) 7 = fl' :=
  claim_c6_clock_scan_terminates (Clock.run [1, 2, 3, 4]) 7 (by decide)

/-- C7: under LRU, touching a resident page p moves it to the head, keeps the
relative order of every other resident page, and changes neither the set of
resident pages, the list length, nor the counter; repeating the touch any
positive number of times gives the same state as touching once. -/
theorem claim_c7_lru_hit_idempotent (ps : List Int) (p : Int)
    (hres : p ∈ (LRU.run ps).frames.map LRU.Frame.page) :
    ((LRU.loadPage (LRU.run ps) p).frames.map LRU.Frame.page
        = p :: ((LRU.run ps).frames.map LRU.Frame.page).erase p) ∧
    (LRU.loadPage (LRU.run ps) p).frames.length = (LRU.run ps).frames.length ∧
    (LRU.loadPage (LRU.run ps) p).numFrames = (LRU.run ps).numFrames ∧
    ((LRU.loadPage (LRU.run ps) p).frames.map LRU.Frame.page).Perm
        ((LRU.run ps).frames.map LRU.Frame.page) ∧
    ∀ n : Nat, (fun fl => LRU.loadPage fl p)^[n + 1] (LRU.run ps)
        = LRU.loadPage (LRU.run ps) p := by
  obtain ⟨hn, hlen, hnd, hval⟩ := LRU.lru_inv_run ps
  set st := LRU.run ps with hst
  have hsome : (LRU.findFrame st p).isSome := by
    rw [LRU.findFrame, List.find?_isSome]
    rcases List.mem_map.mp hres with ⟨f, hf, hfp⟩
    exact ⟨f, hf, by simp [hfp]⟩
  obtain ⟨f₀, hfind⟩ := Option.isSome_iff_exists.mp hsome
  have hmem : f₀ ∈ st.frames := List.mem_of_find?_eq_some hfind
  have hf₀p : f₀.page = p := by simpa using List.find?_some hfind
  have hload : LRU.loadPage st p = LRU.moveToHead st f₀ := by
    simp [LRU.loadPage, hfind]
  have hframes : (LRU.loadPage st p).frames = f₀ :: st.frames.erase f₀ := by
    rw [hload]
    exact LRU.moveToHead_frames st f₀ hmem
  have hnum : (LRU.loadPage st p).numFrames = st.numFrames := by
    rw [hload]
    exact LRU.moveToHead_numFrames st f₀
  have hmap : (LRU.loadPage st p).frames.map LRU.Frame.page
      = p :: (st.frames.map LRU.Frame.page).erase p := by
    rw [hframes, List.map_cons, map_erase_key LRU.Frame.page _ _ hmem hnd, hf₀p]
  have hlenpos : 0 < st.frames.length := List.length_pos.mpr (List.ne_nil_of_mem hmem)
  have hlength : (LRU.loadPage st p).frames.length = st.frames.length := by
    rw [hframes, List.length_cons, List.length_erase_of_mem hmem]
    omega
  have hperm : ((LRU.loadPage st p).frames.map LRU.Frame.page).Perm
      (st.frames.map LRU.Frame.page) := by
    rw [hframes]
    exact ((List.perm_cons_erase hmem).symm.map LRU.Frame.page)
  have hfind2 : LRU.findFrame (LRU.loadPage st p) p = some f₀ := by
    rw [LRU.findFrame, hframes]
    exact List.find?_cons_of_pos _ (by simp [hf₀p])
  have hhead : (LRU.loadPage st p).frames.head? = some f₀ := by
    rw [hframes]
    rfl
  have hfix : LRU.loadPage (LRU.loadPage st p) p = LRU.loadPage st p := by
    rw [LRU.lru_loadPage_hit _ _ _ hfind2]
    unfold LRU.moveToHead
    rw [if_pos hhead]
  refine ⟨hmap, hlength, hnum, hperm, ?_⟩
  intro n
  induction n with
  | zero => simp
  | succ m ih => rw [Function.iterate_succ_apply', ih, hfix]

/-- Witness for C7: touching resident page 1 in the table reached by loading
1 then 2 moves it to the head. -/
theorem claim_c7_lru_hit_idempotent_witness :
    (LRU.loadPage (LRU.run [1, 2]) 1).frames.map LRU.Frame.page
      = 1 :: ((LRU.run [1, 2]).frames.map LRU.Frame.page).erase 1 :=
  (claim_c7_lru_hit_idempotent [1, 2] 1 (by decide)).1

/-- C8: for every policy, a loadPage call on a page that is already resident
causes no admission or eviction: the occupied-frame count is unchanged and
only the touched frame's policy metadata changes. LFU: the list splits at the
first frame storing p; that frame gets its frequency incremented and every
other frame is unchanged in its original place. LRU: the first frame storing
p moves to the head and every other frame is unchanged, in its original
relative order. Clock: the state is exactly the old one with the found
slot's reference bit set and hand and counter untouched. -/
theorem claim_c8_hit_touches_only_metadata :
    (∀ (fl : LFU.FrameList) (p : Int), (∃ f ∈ fl.frames, f.page = p) →
      (LFU.loadPage fl p).numFrames = fl.numFrames ∧
      (LFU.loadPage fl p).frames.length = fl.frames.length ∧
      ∃ l1 f l2, fl.frames = l1 ++ f :: l2 ∧ (∀ g ∈ l1, g.page ≠ p) ∧ f.page = p ∧
        (LFU.loadPage fl p).frames
          = l1 ++ ({ f with frequency := f.frequency + 1 }) :: l2) ∧
    (∀ (fl : LRU.FrameList) (p : Int), (∃ f ∈ fl.frames, f.page = p) →
      (LRU.loadPage fl p).numFrames = fl.numFrames ∧
      (LRU.loadPage fl p).frames.length = fl.frames.length ∧
      ∃ l1 f l2, fl.frames = l1 ++ f :: l2 ∧ (∀ g ∈ l1, g.page ≠ p) ∧ f.page = p ∧
        (LRU.loadPage fl p).frames = f :: (l1 ++ l2)) ∧
    (∀ (fl : Clock.FrameList) (p : Int),
      (∃ i, (fl.frames i).valid = true ∧ (fl.frames i).page = p) →
      ∃ i, Clock.findFrame fl p = some i ∧
        (Clock.loadPage fl p).numFrames = fl.numFrames ∧
        (Clock.loadPage fl p).clockHand = fl.clockHand ∧
        (Clock.loadPage fl p).frames i = { fl.frames i with reference := true } ∧
        ∀ j, j ≠ i → (Clock.loadPage fl p).frames j = fl.frames j) := by
  refine ⟨?_, ?_, ?_⟩
  · intro fl p hres
    have hsome : (LFU.findFrame fl p).isSome := by
      rw [LFU.findFrame, List.find?_isSome]
      obtain ⟨f, hf, hfp⟩ := hres
      exact ⟨f, hf, by simp [hfp]⟩
    obtain ⟨f₀, hfind⟩ := Option.isSome_iff_exists.mp hsome
    have hload : LFU.loadPage fl p = { fl with frames := LFU.touch fl.frames p } :=
      LFU.lfu_loadPage_hit fl p f₀ hfind
    obtain ⟨l1, f, l2, hsplit, hl1, hfp, htouch⟩ := LFU.touch_decomp fl.frames p hres
    refine ⟨by rw [hload], ?_, l1, f, l2, hsplit, hl1, hfp, ?_⟩
    · rw [hload]
      exact LFU.touch_length p fl.frames
    · rw [hload]
      exact htouch
  · intro fl p hres
    have hsome : (LRU.findFrame fl p).isSome := by
      rw [LRU.findFrame, List.find?_isSome]
      obtain ⟨f, hf, hfp⟩ := hres
      exact ⟨f, hf, by simp [hfp]⟩
    obtain ⟨f₀, hfind⟩ := Option.isSome_iff_exists.mp hsome
    have hfp : f₀.page = p := by simpa using List.find?_some hfind
    obtain ⟨l1, l2, hsplit, hl1⟩ := LRU.findFrame_decomp fl.frames p f₀ hfind
    have hload : LRU.loadPage fl p = LRU.moveToHead fl f₀ :=
      LRU.lru_loadPage_hit fl p f₀ hfind
    have hmove : (LRU.moveToHead fl f₀).frames = f₀ :: (l1 ++ l2) :=
      LRU.moveToHead_decomp fl p f₀ l1 l2 hsplit hl1 hfp
    refine ⟨?_, ?_, l1, f₀, l2, hsplit, hl1, hfp, ?_⟩
    · rw [hload]
      exact LRU.moveToHead_numFrames fl f₀
    · rw [hload, hmove, hsplit]
      simp
      omega
    · rw [hload]
      exact hmove
  · intro fl p hres
    have hsome : (Clock.findFrame fl p).isSome := by
      rw [Clock.findFrame, List.find?_isSome]
      obtain ⟨i, hiv, hip⟩ := hres
      exact ⟨i, List.mem_finRange i, by simp [hip]⟩
    obtain ⟨i, hfind⟩ := Option.isSome_iff_exists.mp hsome
    have hload : Clock.loadPage fl p
        = { fl with
            frames := Function.update fl.frames i { fl.frames i with reference := true } } := by
      simp [Clock.loadPage, hfind]
    refine ⟨i, hfind, by rw [hload], by rw [hload], ?_, ?_⟩
    · rw [hload]
      simp [Function.update_apply]
    · intro j hj
      rw [hload]
      simp [Function.update_apply, hj]

/-- Witness for C8 at concrete one-page tables under each policy. -/
theorem claim_c8_hit_touches_only_metadata_witness :
    (LFU.loadPage (LFU.run [1]) 1).numFrames = (LFU.run [1]).numFrames ∧
    (LRU.loadPage (LRU.run [1]) 1).numFrames = (LRU.run [1]).numFrames ∧
    ∃ i, Clock.findFrame (Clock.run [1]) 1 = some i ∧
      (Clock.loadPage (Clock.run [1]) 1).numFrames = (Clock.run [1]).numFrames ∧
      (Clock.loadPage (Clock.run [1]) 1).clockHand = (Clock.run [1]).clockHand ∧
      (Clock.loadPage (Clock.run [1]) 1).frames i
        = { (Clock.run [1]).frames i with reference := true } ∧
      ∀ j, j ≠ i → (Clock.loadPage (Clock.run [1]) 1).frames j
        = (Clock.run [1]).frames j :=
  ⟨(claim_c8_hit_touches_only_metadata.1 (LFU.run [1]) 1
      ⟨{ page := 1, valid := true, frequency := 1 }, by decide, rfl⟩).1,
    (claim_c8_hit_touches_only_metadata.2.1 (LRU.run [1]) 1
      ⟨{ page := 1, valid := true }, by decide, rfl⟩).1,
    claim_c8_hit_touches_only_metadata.2.2 (Clock.run [1]) 1
      ⟨0, by decide, by decide⟩⟩

/-- C9 counterexample: loadPage does not reject the invalid sentinel page id
-1; it mutates the engine state. On the fresh LRU table it inserts -1 as a
resident page; on the fresh Clock table the scan for -1 matches empty slot 0
(findFrame compares page ids regardless of validity) and sets its reference
bit. No error is reported: loadPage has no error channel at all. -/
theorem claim_c9_counterexample :
    LRU.loadPage LRU.createFrameList (-1) ≠ LRU.createFrameList ∧
    (Clock.loadPage Clock.createFrameList (-1)).frames 0
      ≠ Clock.createFrameList.frames 0 :=
  ⟨by decide, by decide⟩

/-- C9 amended: no validation happens: a negative or sentinel page id is
processed like any other value. On the fresh tables, LFU and LRU insert -1 as
an occupied resident frame, and Clock treats -1 as a hit on empty slot 0,
setting that slot's reference bit while leaving everything else (including
the hand) unchanged. -/
theorem claim_c9_amended_no_validation :
    (LFU.loadPage LFU.createFrameList (-1)).frames
      = [{ page := -1, valid := true, frequency := 1 }] ∧
    (LRU.loadPage LRU.createFrameList (-1)).frames
      = [{ page := -1, valid := true }] ∧
    (Clock.loadPage Clock.createFrameList (-1)).frames 0
      = { page := -1, valid := false, reference := true } ∧
    (Clock.loadPage Clock.createFrameList (-1)).frames 1
      = { page := -1, valid := false, reference := false } ∧
    (Clock.loadPage Clock.createFrameList (-1)).frames 2
      = { page := -1, valid := false, reference := false } ∧
    (Clock.loadPage Clock.createFrameList (-1)).frames 3
      = { page := -1, valid := false, reference := false } ∧
    (Clock.loadPage Clock.createFrameList (-1)).clockHand = 0 ∧
    (Clock.loadPage Clock.createFrameList (-1)).numFrames = 0 :=
  ⟨by decide, by decide, by decide, by decide, by decide, by decide, by decide,
    by decide⟩

end PageCache

